import Mathlib

/-!
Verification of the Chan-theory core pipeline (`src/chan_core.py`).

A shallow embedding of the three-stage pipeline of `ChanEngine`:

1. `process_inclusion` — K-line inclusion (containment) merging,
2. `find_fenxing` — top/bottom fractal detection over a 3-wide window,
3. `draw_bi` — the stroke-building state machine with the in-place
   rewrite of the most recently emitted stroke.

Prices and volumes are modelled as rationals (`ℚ`), timestamps and
indices as naturals.  The `original_klines` provenance list of a
standard candle is modelled by the list of raw positions it absorbed
(in the source each raw `ChanKLine` holds `[self]` and merging
concatenates the two lists; positions are the faithful first-order
image of that object-level bookkeeping).

All definitions are computable so concrete runs can be evaluated by
`decide` / `rfl`.
-/

/-- Trend direction enum (`Direction` in the source). -/
inductive Direction where
  | UP : Direction
  | DOWN : Direction
deriving DecidableEq, Repr

/-- Fractal type enum (`FenXingType` in the source). -/
inductive FenXingType where
  | TOP : FenXingType
  | BOTTOM : FenXingType
deriving DecidableEq, Repr

/-- Standard Chan K-line (`ChanKLine` in the source).  `original_klines`
holds the positions (in the raw input sequence) of the raw candles this
standard candle absorbed. -/
structure ChanKLine where
  index : Nat
  datetime : Nat
  open_price : ℚ
  high : ℚ
  low : ℚ
  close : ℚ
  volume : ℚ
  original_klines : List Nat
deriving DecidableEq, Repr

/-- A raw OHLCV input row (one record of the engine input DataFrame). -/
structure Bar where
  datetime : Nat
  open_price : ℚ
  high : ℚ
  low : ℚ
  close : ℚ
  volume : ℚ
deriving DecidableEq, Repr

/-- The engine constructor: raw rows become raw `ChanKLine`s whose
`original_klines` list is the singleton of their own position. -/
def mkRawFrom : Nat → List Bar → List ChanKLine
  | _, [] => []
  | i, r :: rs =>
    { index := i, datetime := r.datetime, open_price := r.open_price,
      high := r.high, low := r.low, close := r.close, volume := r.volume,
      original_klines := [i] } :: mkRawFrom (i + 1) rs

/-- `ChanEngine.__init__`: positions start at 0. -/
def mkRaw (rows : List Bar) : List ChanKLine := mkRawFrom 0 rows

/-- The containment test of the source (`chan_core.py` lines 152–156):
either candle has its `[low, high]` interval enclosing that of the other, with the
non-strict `>=` / `<=` comparisons of the code. -/
def isIncluded (last_k next_k : ChanKLine) : Prop :=
  (last_k.high ≥ next_k.high ∧ last_k.low ≤ next_k.low) ∨
  (next_k.high ≥ last_k.high ∧ next_k.low ≤ last_k.low)

instance (a b : ChanKLine) : Decidable (isIncluded a b) :=
  inferInstanceAs (Decidable
    ((a.high ≥ b.high ∧ a.low ≤ b.low) ∨ (b.high ≥ a.high ∧ b.low ≤ a.low)))

/-- The merge direction computed at lines 163–173: `UP` when the last
buffered candle has a high strictly exceeding that of its predecessor, `DOWN` when
strictly less, and the initial value `UP` otherwise (the code
re-initializes `current_direction = Direction.UP` on every merge, so on
equal highs — and when fewer than two candles are buffered — it is
`UP`). -/
def mergeDirection (last_k : ChanKLine) (rest : List ChanKLine) : Direction :=
  match rest with
  | prev_k :: _ =>
    if last_k.high > prev_k.high then Direction.UP
    else if last_k.high < prev_k.high then Direction.DOWN
    else Direction.UP
  | [] => Direction.UP

/-- Merging two candles under a direction (lines 175–199): `UP` takes
the larger high and larger low, `DOWN` the smaller of both; index,
datetime and close come from the incoming candle, the open from the
buffered one, volume is the sum and the provenance lists concatenate. -/
def mergeK (last_k next_k : ChanKLine) (dir : Direction) : ChanKLine :=
  { index := next_k.index,
    datetime := next_k.datetime,
    open_price := last_k.open_price,
    high := match dir with
      | Direction.UP => max last_k.high next_k.high
      | Direction.DOWN => min last_k.high next_k.high,
    low := match dir with
      | Direction.UP => max last_k.low next_k.low
      | Direction.DOWN => min last_k.low next_k.low,
    close := next_k.close,
    volume := last_k.volume + next_k.volume,
    original_klines := last_k.original_klines ++ next_k.original_klines }

/-- One iteration of the `process_inclusion` loop (lines 144–206).  The
accumulator is kept in reverse: its head is `result[-1]` of the source. -/
def inclStep (result : List ChanKLine) (next_k : ChanKLine) : List ChanKLine :=
  match result with
  | [] => [next_k]
  | last_k :: rest =>
    if isIncluded last_k next_k then
      mergeK last_k next_k (mergeDirection last_k rest) :: rest
    else
      next_k :: last_k :: rest

/-- `ChanEngine.process_inclusion` (lines 109–208): seed with the first
raw candle, fold the rest through `inclStep`.  Inputs with fewer than
two candles are returned unchanged (lines 119–128). -/
def process_inclusion (raws : List ChanKLine) : List ChanKLine :=
  match raws with
  | [] => []
  | k :: ks => ((ks.foldl inclStep [k])).reverse

/-- A default candle used only as the out-of-range placeholder of
`List.getD`; every access is in range wherever it matters. -/
def defaultK : ChanKLine :=
  { index := 0, datetime := 0, open_price := 0, high := 0, low := 0,
    close := 0, volume := 0, original_klines := [] }

/-- The top-fractal condition at interior index `i` (lines 230–231):
the middle candle high and low both strictly exceed those of both neighbors. -/
def isTopAt (std : List ChanKLine) (i : Nat) : Prop :=
  let k1 := std.getD (i - 1) defaultK
  let k2 := std.getD i defaultK
  let k3 := std.getD (i + 1) defaultK
  (k2.high > k1.high ∧ k2.high > k3.high) ∧ (k2.low > k1.low ∧ k2.low > k3.low)

/-- The bottom-fractal condition at interior index `i` (lines 234–235). -/
def isBottomAt (std : List ChanKLine) (i : Nat) : Prop :=
  let k1 := std.getD (i - 1) defaultK
  let k2 := std.getD i defaultK
  let k3 := std.getD (i + 1) defaultK
  (k2.high < k1.high ∧ k2.high < k3.high) ∧ (k2.low < k1.low ∧ k2.low < k3.low)

instance (std : List ChanKLine) (i : Nat) : Decidable (isTopAt std i) :=
  inferInstanceAs (Decidable
    (((std.getD i defaultK).high > (std.getD (i - 1) defaultK).high ∧
      (std.getD i defaultK).high > (std.getD (i + 1) defaultK).high) ∧
     ((std.getD i defaultK).low > (std.getD (i - 1) defaultK).low ∧
      (std.getD i defaultK).low > (std.getD (i + 1) defaultK).low)))

instance (std : List ChanKLine) (i : Nat) : Decidable (isBottomAt std i) :=
  inferInstanceAs (Decidable
    (((std.getD i defaultK).high < (std.getD (i - 1) defaultK).high ∧
      (std.getD i defaultK).high < (std.getD (i + 1) defaultK).high) ∧
     ((std.getD i defaultK).low < (std.getD (i - 1) defaultK).low ∧
      (std.getD i defaultK).low < (std.getD (i + 1) defaultK).low)))

/-- Fractal (`FenXing` in the source).  The source stores the apex
`ChanKLine` object; `idx` here is its position in the standard candle
list, which is exactly what `get_std_index` inside `draw_bi` recovers via
`standard_klines.index(fx.k_line)` (every entry of `standard_klines`
is a distinct object, so `.index` returns the apex position). -/
structure FenXing where
  idx : Nat
  type : FenXingType
  datetime : Nat
  high : ℚ
  low : ℚ
deriving DecidableEq, Repr

/-- The TOP fractal recorded at index `i` (line 238): datetime, high and
low are copied from the apex candle. -/
def topFxAt (std : List ChanKLine) (i : Nat) : FenXing :=
  let k2 := std.getD i defaultK
  { idx := i, type := FenXingType.TOP, datetime := k2.datetime,
    high := k2.high, low := k2.low }

/-- The BOTTOM fractal recorded at index `i` (line 242). -/
def botFxAt (std : List ChanKLine) (i : Nat) : FenXing :=
  let k2 := std.getD i defaultK
  { idx := i, type := FenXingType.BOTTOM, datetime := k2.datetime,
    high := k2.high, low := k2.low }

/-- The fractals recorded by one iteration of the `find_fenxing` loop at
index `i` (lines 237–242): a TOP when `isTopAt`, then a BOTTOM when
`isBottomAt` (the two conditions are mutually exclusive). -/
def fxAt (std : List ChanKLine) (i : Nat) : List FenXing :=
  (if isTopAt std i then [topFxAt std i] else []) ++
  (if isBottomAt std i then [botFxAt std i] else [])

/-- The `while i < len(std) - 1` loop of `find_fenxing`, driven by the
explicit list of visited indices. -/
def fxScan (std : List ChanKLine) : List Nat → List FenXing
  | [] => []
  | i :: is => fxAt std i ++ fxScan std is

/-- `ChanEngine.find_fenxing` (lines 210–244): empty for fewer than 3
standard candles, otherwise the window scan over interior indices
`1 … M-2`. -/
def find_fenxing (std : List ChanKLine) : List FenXing :=
  if std.length < 3 then []
  else fxScan std (List.range' 1 (std.length - 2))

/-- Stroke (`Bi` in the source). -/
structure Bi where
  start_fx : FenXing
  end_fx : FenXing
  direction : Direction
  high : ℚ
  low : ℚ
deriving DecidableEq, Repr

/-- The `Bi.__init__` constructor (lines 71–76): direction is `UP` iff
the end fractal high strictly exceeds the start high. -/
def mkBi (start_fx end_fx : FenXing) : Bi :=
  { start_fx := start_fx,
    end_fx := end_fx,
    direction := if end_fx.high > start_fx.high then Direction.UP else Direction.DOWN,
    high := max start_fx.high end_fx.high,
    low := min start_fx.low end_fx.low }

/-- The same-type extension test (lines 281–286): for a TOP anchor a
higher-or-equal high advances, for a BOTTOM anchor a lower-or-equal
low. -/
def updateStartCond (cur next_fx : FenXing) : Prop :=
  if cur.type = FenXingType.TOP then next_fx.high ≥ cur.high
  else next_fx.low ≤ cur.low

instance (cur next_fx : FenXing) : Decidable (updateStartCond cur next_fx) :=
  inferInstanceAs (Decidable
    (if cur.type = FenXingType.TOP then next_fx.high ≥ cur.high
     else next_fx.low ≤ cur.low))

/-- The 5-candle principle (line 305): signed standard-index distance at
least 4. -/
def hasEnoughBars (cur next_fx : FenXing) : Prop :=
  (next_fx.idx : ℤ) - (cur.idx : ℤ) ≥ 4

instance (cur next_fx : FenXing) : Decidable (hasEnoughBars cur next_fx) :=
  inferInstanceAs (Decidable ((next_fx.idx : ℤ) - (cur.idx : ℤ) ≥ 4))

/-- The strict value check (lines 310–316): a TOP anchor must strictly
dominate the candidate bottom in both high and low; mirrored for a
BOTTOM anchor. -/
def valueCheckCond (cur next_fx : FenXing) : Prop :=
  if cur.type = FenXingType.TOP then
    cur.high > next_fx.high ∧ cur.low > next_fx.low
  else
    cur.low < next_fx.low ∧ cur.high < next_fx.high

instance (cur next_fx : FenXing) : Decidable (valueCheckCond cur next_fx) :=
  inferInstanceAs (Decidable
    (if cur.type = FenXingType.TOP then
      cur.high > next_fx.high ∧ cur.low > next_fx.low
     else
      cur.low < next_fx.low ∧ cur.high < next_fx.high))

/-- One iteration of the `draw_bi` loop (lines 272–332).  The state is
the accumulated stroke list (in reverse: head is `self.bis[-1]`)
together with the current anchor `current_bi_start`.  The same-type
branch may rewrite the last stroke in place; the different-type branch
emits a stroke exactly when both the 5-candle and the value check
pass, and otherwise discards the candidate without moving the anchor. -/
def biStep (st : List Bi × FenXing) (next_fx : FenXing) : List Bi × FenXing :=
  let bis := st.1
  let current_bi_start := st.2
  if next_fx.type = current_bi_start.type then
    if updateStartCond current_bi_start next_fx then
      match bis with
      | [] => ([], next_fx)
      | prev_bi :: rest => (mkBi prev_bi.start_fx next_fx :: rest, next_fx)
    else st
  else
    if hasEnoughBars current_bi_start next_fx ∧ valueCheckCond current_bi_start next_fx then
      (mkBi current_bi_start next_fx :: bis, next_fx)
    else st

/-- `ChanEngine.draw_bi` (lines 246–332): anchored at the first fractal,
fold the remaining fractals through `biStep`. -/
def draw_bi (fenxings : List FenXing) : List Bi :=
  match fenxings with
  | [] => []
  | f :: rest => ((rest.foldl biStep ([], f)).1).reverse

/-- Stage 1 of the pipeline on raw input rows. -/
def chanStd (rows : List Bar) : List ChanKLine := process_inclusion (mkRaw rows)

/-- Stage 2 of the pipeline on raw input rows. -/
def chanFx (rows : List Bar) : List FenXing := find_fenxing (chanStd rows)

/-- Stage 3 (full pipeline) on raw input rows. -/
def chanBis (rows : List Bar) : List Bi := draw_bi (chanFx rows)

/-- Adjacent-containment freedom: no two adjacent candles of the list
are in the (non-strict) containment relation `isIncluded`. -/
def NoInclAdj (l : List ChanKLine) : Prop :=
  List.Chain' (fun a b => ¬ isIncluded a b) l

instance noInclAdjChainDec : (a : ChanKLine) → (l : List ChanKLine) →
    Decidable (List.Chain (fun x y => ¬ isIncluded x y) a l)
  | _, [] => isTrue List.Chain.nil
  | a, b :: l =>
    have := noInclAdjChainDec b l
    decidable_of_iff
      (¬ isIncluded a b ∧ List.Chain (fun x y => ¬ isIncluded x y) b l)
      (@List.chain_cons ChanKLine (fun x y => ¬ isIncluded x y) a b l).symm

instance : (l : List ChanKLine) → Decidable (NoInclAdj l)
  | [] => isTrue List.chain'_nil
  | a :: l => noInclAdjChainDec a l

/-- The merge direction as worded by the spec (§4.1): `UP` or `DOWN` by
strict comparison of the last two buffered highs, otherwise the last
previously determined direction, and `UP` (the initial default) when
fewer than two candles are buffered. -/
def mergeDirectionSpec (last_k : ChanKLine) (rest : List ChanKLine)
    (last_dir : Direction) : Direction :=
  match rest with
  | prev_k :: _ =>
    if last_k.high > prev_k.high then Direction.UP
    else if last_k.high < prev_k.high then Direction.DOWN
    else last_dir
  | [] => Direction.UP

/-- The merge as worded by the spec and the claim: under `UP` the
merged high and low are the larger of the two candidates, under `DOWN`
the smaller of both; the close is the incoming close, the volume the
sum, the raw-index range the union of both ranges.  (Index, datetime
and open are not constrained by that wording; they follow the code.) -/
def mergeKSpec (last_k next_k : ChanKLine) (dir : Direction) : ChanKLine :=
  { index := next_k.index,
    datetime := next_k.datetime,
    open_price := last_k.open_price,
    high := if dir = Direction.UP then max last_k.high next_k.high
            else min last_k.high next_k.high,
    low := if dir = Direction.UP then max last_k.low next_k.low
           else min last_k.low next_k.low,
    close := next_k.close,
    volume := last_k.volume + next_k.volume,
    original_klines := last_k.original_klines ++ next_k.original_klines }

/-- One step of the fold described by the spec (§4.1): a threaded
last-determined direction, containment-triggered merging into the last
buffered slot, plain append otherwise. -/
def inclStepSpec : List ChanKLine × Direction → ChanKLine → List ChanKLine × Direction
  | ([], last_dir), next_k => ([next_k], last_dir)
  | (last_k :: rest, last_dir), next_k =>
    if isIncluded last_k next_k then
      (mergeKSpec last_k next_k (mergeDirectionSpec last_k rest last_dir) :: rest,
       mergeDirectionSpec last_k rest last_dir)
    else (next_k :: last_k :: rest, last_dir)

/-- The inclusion merge as the spec words it: seeded with the first raw
candle, folding the rest through `inclStepSpec` with initial direction
`UP`. -/
def process_inclusion_spec (raws : List ChanKLine) : List ChanKLine :=
  match raws with
  | [] => []
  | k :: ks => ((ks.foldl inclStepSpec ([k], Direction.UP)).1).reverse

/-- The concatenation, in output order, of the raw-position provenance
lists of a candle sequence. -/
def flatOrig (l : List ChanKLine) : List Nat :=
  (l.map ChanKLine.original_klines).flatten

/-- The shared-boundary relation between two consecutive strokes in
output order: the end fractal of the earlier stroke is the start
fractal of the later one. -/
def biLink (b1 b2 : Bi) : Prop := b1.end_fx = b2.start_fx

/-- The per-stroke facts maintained by `draw_bi`: the two endpoint
fractals have different types, the half of value monotonicity anchored
at the polarity of the end fractal holds (a TOP end keeps a strictly
lower start high, a BOTTOM end keeps a strictly higher start low), and
the direction field is the one `Bi.__init__` derives. -/
def GoodBi (b : Bi) : Prop :=
  b.start_fx.type ≠ b.end_fx.type ∧
  (b.end_fx.type = FenXingType.TOP → b.start_fx.high < b.end_fx.high) ∧
  (b.end_fx.type = FenXingType.BOTTOM → b.end_fx.low < b.start_fx.low) ∧
  b.direction = (if b.end_fx.high > b.start_fx.high then Direction.UP else Direction.DOWN)

/-- Loop invariant of `draw_bi` (structure part): every accumulated
stroke is `GoodBi`, consecutive strokes share their boundary fractal
(the accumulator is reversed, whence `flip`), and the end fractal of
the most recent stroke is the current anchor. -/
def InvA (st : List Bi × FenXing) : Prop :=
  (∀ b ∈ st.1, GoodBi b) ∧
  List.Chain' (flip biLink) st.1 ∧
  (∀ b ∈ st.1.head?, b.end_fx = st.2)

/-- Loop invariant of `draw_bi` (spacing part): every accumulated
stroke spans at least 4 standard-candle indices, and the end fractal of
the most recent stroke is the current anchor. -/
def InvB (st : List Bi × FenXing) : Prop :=
  (∀ b ∈ st.1, b.start_fx.idx + 4 ≤ b.end_fx.idx) ∧
  (∀ b ∈ st.1.head?, b.end_fx = st.2)

/-- A convenience raw row: open at the low, close at the high, unit
volume. -/
def mkBar (dt : Nat) (h l : ℚ) : Bar :=
  { datetime := dt, open_price := l, high := h, low := l, close := h, volume := 1 }

/-- An 11-bar input with no containment anywhere.  Its fractals are a
BOTTOM at standard index 2, a TOP at 6, a BOTTOM at 7, a TOP at 8 and a
BOTTOM at 9; `draw_bi` first emits the stroke 2 → 6, then the TOP at 8
(higher high, but a low below the BOTTOM at 2) rewrites its end in
place. -/
def ex1 : List Bar :=
  [mkBar 0 20 18, mkBar 1 18 16, mkBar 2 16 14, mkBar 3 19 17, mkBar 4 21 19,
   mkBar 5 23 21, mkBar 6 25 23, mkBar 7 24 8, mkBar 8 26 10, mkBar 9 25 9,
   mkBar 10 27 10]

/-- The single stroke the pipeline produces on `ex1`: an UP stroke from
the BOTTOM at index 2 to the rewritten TOP at index 8, whose start low
(14) is strictly above its end low (10). -/
def cexBi : Bi :=
  { start_fx := { idx := 2, type := FenXingType.BOTTOM, datetime := 2, high := 16, low := 14 },
    end_fx := { idx := 8, type := FenXingType.TOP, datetime := 8, high := 26, low := 10 },
    direction := Direction.UP, high := 26, low := 10 }

/-- A sample BOTTOM fractal (the one at standard index 2 of `ex1`). -/
def sampleB : FenXing :=
  { idx := 2, type := FenXingType.BOTTOM, datetime := 2, high := 16, low := 14 }

/-- A sample TOP fractal four standard candles later. -/
def sampleT : FenXing :=
  { idx := 6, type := FenXingType.TOP, datetime := 6, high := 25, low := 23 }

/-- A sample TOP fractal too close to `sampleB` (index distance 1). -/
def sampleTnear : FenXing :=
  { idx := 3, type := FenXingType.TOP, datetime := 3, high := 25, low := 23 }

/-- A convenience standard candle for small concrete checks. -/
def mkK (i : Nat) (h l : ℚ) : ChanKLine :=
  { index := i, datetime := i, open_price := l, high := h, low := l,
    close := h, volume := 1, original_klines := [i] }

/-- A three-candle standard sequence with a TOP at index 1. -/
def std3 : List ChanKLine := [mkK 0 10 9, mkK 1 12 11, mkK 2 9 8]

/-- `isIncluded` is symmetric: the test checks both enclosure
directions. -/
lemma isIncluded_comm {a b : ChanKLine} : isIncluded a b ↔ isIncluded b a := by
  unfold isIncluded; tauto

/-- Two candles with equal highs are always in containment (whichever
has the lower low encloses the other). -/
lemma isIncluded_of_high_eq {a b : ChanKLine} (h : a.high = b.high) :
    isIncluded a b := by
  unfold isIncluded
  rcases le_total a.low b.low with hl | hl
  · exact Or.inl ⟨le_of_eq h.symm, hl⟩
  · exact Or.inr ⟨le_of_eq h, hl⟩

/-- Merging the last buffered candle with an incoming contained candle
cannot create a containment against the previous buffered candle: the
direction comparison is strict (equal highs are impossible next to a
non-contained neighbor), and the merged extremes move away from the
previous candle on the side that already separated them. -/
lemma merge_not_included {prev last_k next_k : ChanKLine} (r : List ChanKLine)
    (hnp : ¬ isIncluded last_k prev) :
    ¬ isIncluded (mergeK last_k next_k (mergeDirection last_k (prev :: r))) prev := by
  have hne : last_k.high ≠ prev.high := fun h => hnp (isIncluded_of_high_eq h)
  rcases lt_or_gt_of_ne hne with hlt | hgt
  · -- last below prev: the direction is DOWN, the merged candle stays below
    have hdir : mergeDirection last_k (prev :: r) = Direction.DOWN := by
      show (if last_k.high > prev.high then Direction.UP
            else if last_k.high < prev.high then Direction.DOWN
            else Direction.UP) = Direction.DOWN
      rw [if_neg (lt_asymm hlt), if_pos hlt]
    have hlow : last_k.low < prev.low := by
      by_contra hc
      exact hnp (Or.inr ⟨le_of_lt hlt, not_lt.mp hc⟩)
    rw [hdir]
    intro hc
    rcases hc with ⟨h1, _⟩ | ⟨_, h2⟩
    · simp only [mergeK] at h1
      have : min last_k.high next_k.high ≤ last_k.high := min_le_left _ _
      exact absurd h1 (not_le.mpr (lt_of_le_of_lt this hlt))
    · simp only [mergeK] at h2
      have : min last_k.low next_k.low ≤ last_k.low := min_le_left _ _
      exact absurd h2 (not_le.mpr (lt_of_le_of_lt this hlow))
  · -- last above prev: the direction is UP, the merged candle stays above
    have hdir : mergeDirection last_k (prev :: r) = Direction.UP := by
      show (if last_k.high > prev.high then Direction.UP
            else if last_k.high < prev.high then Direction.DOWN
            else Direction.UP) = Direction.UP
      rw [if_pos hgt]
    have hlow : prev.low < last_k.low := by
      by_contra hc
      exact hnp (Or.inl ⟨le_of_lt hgt, not_lt.mp hc⟩)
    rw [hdir]
    intro hc
    rcases hc with ⟨_, h1⟩ | ⟨h2, _⟩
    · simp only [mergeK] at h1
      have : last_k.low ≤ max last_k.low next_k.low := le_max_left _ _
      exact absurd h1 (not_le.mpr (lt_of_lt_of_le hlow this))
    · simp only [mergeK] at h2
      have : last_k.high ≤ max last_k.high next_k.high := le_max_left _ _
      exact absurd h2 (not_le.mpr (lt_of_lt_of_le hgt this))

/-- One `inclStep` preserves adjacent-containment freedom of the
(reversed) accumulator. -/
lemma inclStep_noInclAdj : ∀ (acc : List ChanKLine) (k : ChanKLine),
    NoInclAdj acc → NoInclAdj (inclStep acc k)
  | [], k, _ => by
    simp [inclStep, NoInclAdj]
  | last_k :: rest, k, h => by
    show NoInclAdj (if isIncluded last_k k then
      mergeK last_k k (mergeDirection last_k rest) :: rest else k :: last_k :: rest)
    split_ifs with hin
    · cases rest with
      | nil => simp [NoInclAdj]
      | cons prev r =>
        have h1 : ¬ isIncluded last_k prev := (List.chain'_cons.mp h).1
        have h2 : NoInclAdj (prev :: r) := (List.chain'_cons.mp h).2
        exact List.chain'_cons.mpr ⟨merge_not_included r h1, h2⟩
    · exact List.chain'_cons.mpr ⟨fun hik => hin (isIncluded_comm.mp hik), h⟩

/-- The whole fold preserves adjacent-containment freedom. -/
lemma foldl_inclStep_noInclAdj : ∀ (ks acc : List ChanKLine),
    NoInclAdj acc → NoInclAdj (ks.foldl inclStep acc)
  | [], _, h => h
  | k :: ks, acc, h =>
    foldl_inclStep_noInclAdj ks (inclStep acc k) (inclStep_noInclAdj acc k h)

/-- Adjacent-containment freedom is stable under `reverse` because
`isIncluded` is symmetric. -/
lemma noInclAdj_reverse {l : List ChanKLine} (h : NoInclAdj l) :
    NoInclAdj l.reverse := by
  unfold NoInclAdj at h ⊢
  rw [List.chain'_reverse]
  exact h.imp fun a b hab hk => hab (isIncluded_comm.mp hk)

/-- The output of `process_inclusion` has no adjacent containment pair. -/
lemma noInclAdj_process (raws : List ChanKLine) :
    NoInclAdj (process_inclusion raws) := by
  cases raws with
  | nil => simp [process_inclusion, NoInclAdj]
  | cons k ks =>
    exact noInclAdj_reverse
      (foldl_inclStep_noInclAdj ks [k] (List.chain'_singleton k))

/-- On a containment-free suffix the fold only appends. -/
lemma foldl_inclStep_of_chain :
    ∀ (ys : List ChanKLine) (a : ChanKLine) (racc : List ChanKLine),
      List.Chain (fun x y => ¬ isIncluded x y) a ys →
      ys.foldl inclStep (a :: racc) = ys.reverse ++ a :: racc
  | [], _, _, _ => by simp
  | y :: ys, a, racc, h => by
    rcases List.chain_cons.mp h with ⟨hay, hch⟩
    have hstep : inclStep (a :: racc) y = y :: a :: racc := by
      show (if isIncluded a y then
        mergeK a y (mergeDirection a racc) :: racc else y :: a :: racc) = _
      rw [if_neg hay]
    rw [List.foldl_cons, hstep, foldl_inclStep_of_chain ys y (a :: racc) hch]
    simp

/-- A containment-free sequence passes through `process_inclusion`
unchanged. -/
lemma process_of_noInclAdj : ∀ {xs : List ChanKLine},
    NoInclAdj xs → process_inclusion xs = xs
  | [], _ => rfl
  | x :: xs, h => by
    have hch : List.Chain (fun a b => ¬ isIncluded a b) x xs := h
    show ((xs.foldl inclStep [x])).reverse = x :: xs
    rw [foldl_inclStep_of_chain xs x [] hch]
    simp

/-- The spec merge and the code merge compute the same candle. -/
lemma mergeKSpec_eq (last_k next_k : ChanKLine) :
    ∀ dir, mergeKSpec last_k next_k dir = mergeK last_k next_k dir
  | Direction.UP => rfl
  | Direction.DOWN => rfl

/-- Next to a candle it is not in containment with, the code direction
(default `UP` on the dead equal-highs branch) agrees with the spec
direction (retain the last determined one). -/
lemma mergeDirectionSpec_eq {last_k prev : ChanKLine} (r : List ChanKLine)
    (d : Direction) (hne : last_k.high ≠ prev.high) :
    mergeDirectionSpec last_k (prev :: r) d = mergeDirection last_k (prev :: r) := by
  show (if last_k.high > prev.high then Direction.UP
        else if last_k.high < prev.high then Direction.DOWN else d) =
    (if last_k.high > prev.high then Direction.UP
     else if last_k.high < prev.high then Direction.DOWN else Direction.UP)
  split_ifs with h1 h2
  · rfl
  · rfl
  · exact absurd (le_antisymm (not_lt.mp h2) (not_lt.mp h1)) hne.symm

/-- On a containment-free accumulator, one spec step computes the same
buffer as one code step (for some threaded direction). -/
lemma inclStepSpec_fst : ∀ (acc : List ChanKLine) (d : Direction) (k : ChanKLine),
    NoInclAdj acc → ∃ d', inclStepSpec (acc, d) k = (inclStep acc k, d')
  | [], d, k, _ => ⟨d, rfl⟩
  | last_k :: rest, d, k, h => by
    by_cases hin : isIncluded last_k k
    · cases rest with
      | nil =>
        refine ⟨Direction.UP, ?_⟩
        simp only [inclStepSpec, inclStep, if_pos hin, mergeKSpec_eq]
        rfl
      | cons prev r =>
        have hne : last_k.high ≠ prev.high :=
          fun he => (List.chain'_cons.mp h).1 (isIncluded_of_high_eq he)
        refine ⟨mergeDirection last_k (prev :: r), ?_⟩
        simp only [inclStepSpec, inclStep, if_pos hin, mergeDirectionSpec_eq r d hne,
          mergeKSpec_eq]
    · exact ⟨d, by simp only [inclStepSpec, inclStep, if_neg hin]⟩

/-- On a containment-free accumulator the two folds produce the same
buffer. -/
lemma foldl_inclStep_spec_eq : ∀ (ks acc : List ChanKLine) (d : Direction),
    NoInclAdj acc →
    (ks.foldl inclStepSpec (acc, d)).1 = ks.foldl inclStep acc
  | [], _, _, _ => rfl
  | k :: ks, acc, d, h => by
    obtain ⟨d', hd'⟩ := inclStepSpec_fst acc d k h
    rw [List.foldl_cons, List.foldl_cons, hd']
    exact foldl_inclStep_spec_eq ks _ d' (inclStep_noInclAdj acc k h)

/-- One `inclStep` appends exactly the provenance of the incoming
candle to the provenance of the buffer (a merge concatenates into the
last slot, an append adds a new slot). -/
lemma inclStep_flatOrig (acc : List ChanKLine) (k : ChanKLine) :
    flatOrig (inclStep acc k).reverse =
      flatOrig acc.reverse ++ k.original_klines := by
  cases acc with
  | nil => simp [inclStep, flatOrig]
  | cons last_k rest =>
    show flatOrig (if isIncluded last_k k then
        mergeK last_k k (mergeDirection last_k rest) :: rest
      else k :: last_k :: rest).reverse = _
    split_ifs with hin
    · simp [flatOrig, mergeK, List.append_assoc]
    · simp [flatOrig, List.append_assoc]

/-- The fold preserves the concatenated provenance. -/
lemma foldl_inclStep_flatOrig : ∀ (ks acc : List ChanKLine),
    flatOrig (ks.foldl inclStep acc).reverse =
      flatOrig acc.reverse ++ flatOrig ks
  | [], acc => by simp [flatOrig]
  | k :: ks, acc => by
    rw [List.foldl_cons, foldl_inclStep_flatOrig ks _, inclStep_flatOrig]
    simp [flatOrig, List.append_assoc]

/-- `process_inclusion` preserves the concatenated provenance. -/
lemma process_inclusion_flatOrig (raws : List ChanKLine) :
    flatOrig (process_inclusion raws) = flatOrig raws := by
  cases raws with
  | nil => rfl
  | cons k ks =>
    show flatOrig ((ks.foldl inclStep [k])).reverse = _
    rw [foldl_inclStep_flatOrig ks [k]]
    simp [flatOrig]

/-- The raw candles built by the engine carry the contiguous range of
their own positions as provenance. -/
lemma mkRawFrom_flatOrig : ∀ (i : Nat) (rows : List Bar),
    flatOrig (mkRawFrom i rows) = List.range' i rows.length
  | _, [] => rfl
  | i, r :: rs => by
    simp [mkRawFrom, flatOrig, List.range'_succ] at *
    have := mkRawFrom_flatOrig (i + 1) rs
    simpa [flatOrig] using this

/-- Every fractal recorded at index `i` has apex index `i`. -/
lemma fxAt_idx {std : List ChanKLine} {i : Nat} {fx : FenXing}
    (h : fx ∈ fxAt std i) : fx.idx = i := by
  unfold fxAt at h
  rcases List.mem_append.mp h with h1 | h1 <;>
    [skip; skip] <;>
  · split_ifs at h1 with hc
    · rcases List.mem_singleton.mp h1 with rfl
      rfl
    · exact absurd h1 (List.not_mem_nil fx)

/-- The top and bottom conditions are mutually exclusive at every
index. -/
lemma not_top_and_bottom (std : List ChanKLine) (i : Nat) :
    ¬ (isTopAt std i ∧ isBottomAt std i) := by
  rintro ⟨⟨⟨h1, -⟩, -⟩, ⟨⟨h2, -⟩, -⟩⟩
  exact absurd h1 (not_lt.mpr (le_of_lt h2))

/-- Membership in the window scan. -/
lemma fxScan_mem {std : List ChanKLine} :
    ∀ {is : List Nat} {fx : FenXing},
      fx ∈ fxScan std is ↔ ∃ j ∈ is, fx ∈ fxAt std j := by
  intro is
  induction is with
  | nil => simp [fxScan]
  | cons i is ih => intro fx; simp [fxScan, ih, List.mem_append]

/-- At most one fractal is recorded per index, so each block is
trivially pairwise-sorted. -/
lemma fxAt_pairwise (std : List ChanKLine) (i : Nat) :
    (fxAt std i).Pairwise (fun a b => a.idx < b.idx) := by
  unfold fxAt
  split_ifs with h1 h2 h2
  · exact absurd ⟨h1, h2⟩ (not_top_and_bottom std i)
  · simp
  · simp
  · simp

/-- The window scan over a strictly increasing index list yields a list
strictly sorted by apex index. -/
lemma fxScan_pairwise (std : List ChanKLine) : ∀ (is : List Nat),
    is.Pairwise (· < ·) →
    (fxScan std is).Pairwise (fun a b => a.idx < b.idx)
  | [], _ => by simp [fxScan]
  | i :: is, hp => by
    obtain ⟨hi, hp'⟩ := List.pairwise_cons.mp hp
    unfold fxScan
    rw [List.pairwise_append]
    refine ⟨fxAt_pairwise std i, fxScan_pairwise std is hp', ?_⟩
    intro a ha b hb
    rcases fxScan_mem.mp hb with ⟨j, hj, hbj⟩
    rw [fxAt_idx ha, fxAt_idx hbj]
    exact hi j hj

/-- `find_fenxing` output is strictly sorted by apex index. -/
lemma find_fenxing_pairwise (std : List ChanKLine) :
    (find_fenxing std).Pairwise (fun a b => a.idx < b.idx) := by
  unfold find_fenxing
  split_ifs with h
  · simp
  · exact fxScan_pairwise std _ (List.pairwise_lt_range' 1 (std.length - 2))

/-- Membership characterization of `find_fenxing`: a fractal is
recorded exactly for the interior indices the while loop visits. -/
lemma find_fenxing_mem {std : List ChanKLine} {fx : FenXing} :
    fx ∈ find_fenxing std ↔
      3 ≤ std.length ∧ ∃ j, 1 ≤ j ∧ j + 1 < std.length ∧ fx ∈ fxAt std j := by
  unfold find_fenxing
  split_ifs with h
  · simp only [List.not_mem_nil, false_iff]
    rintro ⟨h3, -⟩
    omega
  · rw [fxScan_mem]
    constructor
    · rintro ⟨j, hj, hfx⟩
      rcases List.mem_range'.mp hj with ⟨c, hc, rfl⟩
      exact ⟨by omega, 1 + 1 * c, by omega, by omega, hfx⟩
    · rintro ⟨-, j, h1, h2, hfx⟩
      exact ⟨j, List.mem_range'.mpr ⟨j - 1, by omega, by omega⟩, hfx⟩

/-- Unfolded form of `biStep` on an explicit state pair. -/
lemma biStep_eq (bis : List Bi) (cur f : FenXing) :
    biStep (bis, cur) f =
      if f.type = cur.type then
        (if updateStartCond cur f then
          (match bis with
           | [] => ([], f)
           | prev_bi :: rest => (mkBi prev_bi.start_fx f :: rest, f))
         else (bis, cur))
      else
        (if hasEnoughBars cur f ∧ valueCheckCond cur f then
          (mkBi cur f :: bis, f)
         else (bis, cur)) := rfl

/-- One `biStep` keeps the structural invariant: every stored stroke
stays `GoodBi`, boundaries stay shared, and the last stroke end stays
equal to the anchor. -/
lemma biStep_invA (st : List Bi × FenXing) (f : FenXing) (h : InvA st) :
    InvA (biStep st f) := by
  obtain ⟨bis, cur⟩ := st
  obtain ⟨hgood, hchain, hhead⟩ := h
  rw [biStep_eq]
  by_cases hty : f.type = cur.type
  · rw [if_pos hty]
    by_cases hupd : updateStartCond cur f
    · rw [if_pos hupd]
      cases bis with
      | nil =>
        show InvA ([], f)
        refine ⟨by simp, by simp, by simp⟩
      | cons prev_bi rest =>
        show InvA (mkBi prev_bi.start_fx f :: rest, f)
        have hpe : prev_bi.end_fx = cur := hhead prev_bi (by simp)
        obtain ⟨htyp, htopp, hbotp, -⟩ := hgood prev_bi (by simp)
        refine ⟨?_, ?_, ?_⟩
        · intro b hb
          rcases List.mem_cons.mp hb with rfl | hb
          · refine ⟨?_, ?_, ?_, rfl⟩
            · show prev_bi.start_fx.type ≠ f.type
              rw [hty, ← hpe]
              exact htyp
            · intro hTf
              show prev_bi.start_fx.high < f.high
              have hTf2 : f.type = FenXingType.TOP := hTf
              have hcur : cur.type = FenXingType.TOP := by rw [← hty, hTf2]
              have hge : f.high ≥ cur.high := by
                rw [updateStartCond, if_pos hcur] at hupd
                exact hupd
              have hlt : prev_bi.start_fx.high < cur.high := by
                rw [← hpe]
                exact htopp (by rw [hpe, hcur])
              exact lt_of_lt_of_le hlt hge
            · intro hBf
              show f.low < prev_bi.start_fx.low
              have hBf2 : f.type = FenXingType.BOTTOM := hBf
              have hcur : cur.type = FenXingType.BOTTOM := by rw [← hty, hBf2]
              have hle : f.low ≤ cur.low := by
                rw [updateStartCond, if_neg (by rw [hcur]; exact fun hc => FenXingType.noConfusion hc)] at hupd
                exact hupd
              have hlt : cur.low < prev_bi.start_fx.low := by
                rw [← hpe]
                exact hbotp (by rw [hpe, hcur])
              exact lt_of_le_of_lt hle hlt
          · exact hgood b (List.mem_cons_of_mem _ hb)
        · rw [List.chain'_cons'] at hchain ⊢
          exact ⟨hchain.1, hchain.2⟩
        · intro b hb
          simp only [List.head?_cons, Option.mem_def, Option.some.injEq] at hb
          rw [← hb]
          rfl
    · rw [if_neg hupd]
      exact ⟨hgood, hchain, hhead⟩
  · rw [if_neg hty]
    by_cases hev : hasEnoughBars cur f ∧ valueCheckCond cur f
    · rw [if_pos hev]
      refine ⟨?_, ?_, ?_⟩
      · intro b hb
        rcases List.mem_cons.mp hb with rfl | hb
        · refine ⟨?_, ?_, ?_, rfl⟩
          · show cur.type ≠ f.type
            exact fun he => hty he.symm
          · intro hTf
            show cur.high < f.high
            have hcur : cur.type = FenXingType.BOTTOM := by
              cases hc : cur.type with
              | TOP => exact absurd (hTf.trans hc.symm) hty
              | BOTTOM => rfl
            have := hev.2
            rw [valueCheckCond,
              if_neg (by rw [hcur]; exact fun hc => FenXingType.noConfusion hc)] at this
            exact this.2
          · intro hBf
            show f.low < cur.low
            have hcur : cur.type = FenXingType.TOP := by
              cases hc : cur.type with
              | TOP => rfl
              | BOTTOM => exact absurd (hBf.trans hc.symm) hty
            have := hev.2
            rw [valueCheckCond, if_pos hcur] at this
            exact this.2
        · exact hgood b hb
      · rw [List.chain'_cons']
        refine ⟨?_, hchain⟩
        intro y hy
        exact hhead y hy
      · intro b hb
        simp only [List.head?_cons, Option.mem_def, Option.some.injEq] at hb
        rw [← hb]
        rfl
    · rw [if_neg hev]
      exact ⟨hgood, hchain, hhead⟩

/-- The whole fold preserves the structural invariant. -/
lemma foldl_biStep_invA : ∀ (fxs : List FenXing) (st : List Bi × FenXing),
    InvA st → InvA (fxs.foldl biStep st)
  | [], _, h => h
  | f :: fxs, st, h =>
    foldl_biStep_invA fxs (biStep st f) (biStep_invA st f h)

/-- After one `biStep` the anchor is either unchanged or the incoming
fractal. -/
lemma biStep_anchor (bis : List Bi) (cur f : FenXing) :
    (biStep (bis, cur) f).2 = cur ∨ (biStep (bis, cur) f).2 = f := by
  rw [biStep_eq]
  by_cases hty : f.type = cur.type
  · rw [if_pos hty]
    by_cases hupd : updateStartCond cur f
    · rw [if_pos hupd]
      cases bis with
      | nil => exact Or.inr rfl
      | cons prev_bi rest => exact Or.inr rfl
    · rw [if_neg hupd]
      exact Or.inl rfl
  · rw [if_neg hty]
    by_cases hev : hasEnoughBars cur f ∧ valueCheckCond cur f
    · rw [if_pos hev]
      exact Or.inr rfl
    · rw [if_neg hev]
      exact Or.inl rfl

/-- One `biStep` keeps the spacing invariant when the incoming fractal
lies strictly after the anchor in standard-candle order. -/
lemma biStep_invB (bis : List Bi) (cur f : FenXing) (hcf : cur.idx < f.idx)
    (h : InvB (bis, cur)) : InvB (biStep (bis, cur) f) := by
  obtain ⟨hspace, hhead⟩ := h
  rw [biStep_eq]
  by_cases hty : f.type = cur.type
  · rw [if_pos hty]
    by_cases hupd : updateStartCond cur f
    · rw [if_pos hupd]
      cases bis with
      | nil =>
        show InvB ([], f)
        exact ⟨by simp, by simp⟩
      | cons prev_bi rest =>
        show InvB (mkBi prev_bi.start_fx f :: rest, f)
        have hpe : prev_bi.end_fx = cur := hhead prev_bi (by simp)
        have hps : prev_bi.start_fx.idx + 4 ≤ prev_bi.end_fx.idx :=
          hspace prev_bi (by simp)
        refine ⟨?_, ?_⟩
        · intro b hb
          rcases List.mem_cons.mp hb with rfl | hb
          · show prev_bi.start_fx.idx + 4 ≤ f.idx
            rw [hpe] at hps
            omega
          · exact hspace b (List.mem_cons_of_mem _ hb)
        · intro b hb
          simp only [List.head?_cons, Option.mem_def, Option.some.injEq] at hb
          rw [← hb]
          rfl
    · rw [if_neg hupd]
      exact ⟨hspace, hhead⟩
  · rw [if_neg hty]
    by_cases hev : hasEnoughBars cur f ∧ valueCheckCond cur f
    · rw [if_pos hev]
      refine ⟨?_, ?_⟩
      · intro b hb
        rcases List.mem_cons.mp hb with rfl | hb
        · show cur.idx + 4 ≤ f.idx
          have := hev.1
          rw [hasEnoughBars] at this
          omega
        · exact hspace b hb
      · intro b hb
        simp only [List.head?_cons, Option.mem_def, Option.some.injEq] at hb
        rw [← hb]
        rfl
    · rw [if_neg hev]
      exact ⟨hspace, hhead⟩

/-- The whole fold keeps the spacing invariant when the pending
fractals are strictly increasing in standard index and all lie after
the anchor. -/
lemma foldl_biStep_invB : ∀ (fxs : List FenXing) (bis : List Bi) (cur : FenXing),
    List.Pairwise (fun a b => a.idx < b.idx) fxs →
    (∀ g ∈ fxs, cur.idx < g.idx) →
    InvB (bis, cur) → InvB (fxs.foldl biStep (bis, cur))
  | [], _, _, _, _, h => h
  | f :: fxs, bis, cur, hp, hlt, h => by
    obtain ⟨hf, hp2⟩ := List.pairwise_cons.mp hp
    have hcf : cur.idx < f.idx := hlt f (by simp)
    have h2 := biStep_invB bis cur f hcf h
    have ha := biStep_anchor bis cur f
    rcases hst : biStep (bis, cur) f with ⟨bis2, cur2⟩
    rw [hst] at h2 ha
    have hlt2 : ∀ g ∈ fxs, cur2.idx < g.idx := by
      intro g hg
      rcases ha with ha | ha
      · have hc : cur2 = cur := ha
        rw [hc]
        exact hlt g (List.mem_cons_of_mem _ hg)
      · have hc : cur2 = f := ha
        rw [hc]
        exact hf g hg
    rw [List.foldl_cons, hst]
    exact foldl_biStep_invB fxs bis2 cur2 hp2 hlt2 h2

/-- The structural invariant transfers to the final stroke list of
`draw_bi`. -/
lemma draw_bi_invA (fxs : List FenXing) :
    (∀ b ∈ draw_bi fxs, GoodBi b) ∧ List.Chain' biLink (draw_bi fxs) := by
  cases fxs with
  | nil =>
    constructor
    · intro b hb
      exact absurd hb (List.not_mem_nil b)
    · exact List.chain'_nil
  | cons f rest =>
    have h := foldl_biStep_invA rest ([], f)
      ⟨fun b hb => absurd hb (List.not_mem_nil b), List.chain'_nil,
       fun b hb => (Option.not_mem_none b hb).elim⟩
    constructor
    · intro b hb
      exact h.1 b (List.mem_reverse.mp hb)
    · exact List.chain'_reverse.mpr h.2.1

/-- The spacing invariant transfers to the final stroke list of
`draw_bi` when the fractal list is strictly sorted by apex index. -/
lemma draw_bi_spacing (fxs : List FenXing)
    (hp : fxs.Pairwise (fun a b => a.idx < b.idx)) :
    ∀ b ∈ draw_bi fxs, b.start_fx.idx + 4 ≤ b.end_fx.idx := by
  cases fxs with
  | nil =>
    intro b hb
    exact absurd hb (List.not_mem_nil b)
  | cons f rest =>
    obtain ⟨hf, hp2⟩ := List.pairwise_cons.mp hp
    have h := foldl_biStep_invB rest [] f hp2 hf
      ⟨fun b hb => absurd hb (List.not_mem_nil b),
       fun b hb => (Option.not_mem_none b hb).elim⟩
    intro b hb
    exact h.1 b (List.mem_reverse.mp hb)

/-- C1 (counterexample).  On the valid 11-bar input `ex1` the full
pipeline ends with a single stroke whose end fractal was rewritten in
place by the same-type extension step: the stroke has direction `UP`
but its start low (14) is not below its end low (10), refuting the
claimed value monotonicity of the final stroke list. -/
theorem C1_stroke_value_monotonicity_cex :
    chanBis ex1 = [cexBi] ∧ cexBi.direction = Direction.UP ∧
      ¬ (cexBi.start_fx.low < cexBi.end_fx.low) :=
  ⟨by decide, by decide, by decide⟩

/-- C1 (amended).  For every run of the full pipeline, every stroke of
the final list satisfies the half of value monotonicity anchored at the
polarity of its end fractal: a stroke ending in a TOP has a strictly
rising high (and is an `UP` stroke), a stroke ending in a BOTTOM has a
strictly falling low.  The other two inequalities of the original claim
can be destroyed by the in-place rewrite, as `C1` shows on `ex1`. -/
theorem C1_stroke_weak_value_monotonicity :
    ∀ rows : List Bar, ∀ b ∈ chanBis rows,
      (b.end_fx.type = FenXingType.TOP →
        b.start_fx.high < b.end_fx.high ∧ b.direction = Direction.UP) ∧
      (b.end_fx.type = FenXingType.BOTTOM → b.end_fx.low < b.start_fx.low) := by
  intro rows b hb
  obtain ⟨-, htop, hbot, hdir⟩ := (draw_bi_invA (chanFx rows)).1 b hb
  refine ⟨fun hT => ⟨htop hT, ?_⟩, hbot⟩
  rw [hdir, if_pos (htop hT)]

/-- Witness for the amended C1 at the concrete run on `ex1`. -/
theorem C1_stroke_weak_value_monotonicity_witness :
    (cexBi.end_fx.type = FenXingType.TOP →
      cexBi.start_fx.high < cexBi.end_fx.high ∧ cexBi.direction = Direction.UP) ∧
    (cexBi.end_fx.type = FenXingType.BOTTOM → cexBi.end_fx.low < cexBi.start_fx.low) :=
  C1_stroke_weak_value_monotonicity ex1 cexBi (by decide)

/-- C2.  `process_inclusion` computes exactly the left-to-right fold
the spec describes, including the threaded last-determined merge
direction: the two folds coincide on every input because two adjacent
buffered candles can never have equal highs, so the equal-highs branch
(where the code defaults to `UP` instead of retaining the previous
direction) is unreachable. -/
theorem C2_process_inclusion_matches_spec :
    ∀ raws : List ChanKLine, process_inclusion raws = process_inclusion_spec raws := by
  intro raws
  cases raws with
  | nil => rfl
  | cons k ks =>
    show ((ks.foldl inclStep [k])).reverse =
      ((ks.foldl inclStepSpec ([k], Direction.UP)).1).reverse
    rw [foldl_inclStep_spec_eq ks [k] Direction.UP (List.chain'_singleton k)]

/-- C3.  After `process_inclusion`, no two adjacent standard candles
are in the (non-strict) containment relation, for every raw input. -/
theorem C3_no_adjacent_containment :
    ∀ raws : List ChanKLine, NoInclAdj (process_inclusion raws) :=
  noInclAdj_process

/-- C4.  In the final stroke list, consecutive strokes share their
boundary fractal, and every stroke has endpoint fractals of different
types (hence consecutive strokes have opposite start types). -/
theorem C4_stroke_alternation :
    ∀ fxs : List FenXing,
      List.Chain' biLink (draw_bi fxs) ∧
      ∀ b ∈ draw_bi fxs, b.start_fx.type ≠ b.end_fx.type := by
  intro fxs
  exact ⟨(draw_bi_invA fxs).2, fun b hb => ((draw_bi_invA fxs).1 b hb).1⟩

/-- Witness for C4 on a concrete two-fractal run. -/
theorem C4_stroke_alternation_witness :
    (mkBi sampleB sampleT).start_fx.type ≠ (mkBi sampleB sampleT).end_fx.type :=
  (C4_stroke_alternation [sampleB, sampleT]).2 (mkBi sampleB sampleT) (by decide)

/-- C5.  Every stroke in the output of `draw_bi` on a detected fractal
list spans at least 4 standard-candle indices; and a candidate terminal
fractal at signed distance below 4 is discarded with the whole state
(stroke list and anchor) left unchanged. -/
theorem C5_stroke_spacing :
    (∀ std : List ChanKLine, ∀ b ∈ draw_bi (find_fenxing std),
        b.start_fx.idx + 4 ≤ b.end_fx.idx) ∧
    (∀ (st : List Bi × FenXing) (f : FenXing), f.type ≠ st.2.type →
        (f.idx : ℤ) - (st.2.idx : ℤ) < 4 → biStep st f = st) := by
  constructor
  · intro std b hb
    exact draw_bi_spacing (find_fenxing std) (find_fenxing_pairwise std) b hb
  · intro st f hty hdist
    obtain ⟨bis, cur⟩ := st
    have hdist2 : (f.idx : ℤ) - (cur.idx : ℤ) < 4 := hdist
    have hty2 : f.type ≠ cur.type := hty
    have hne : ¬ (hasEnoughBars cur f ∧ valueCheckCond cur f) := by
      rintro ⟨h4, -⟩
      rw [hasEnoughBars] at h4
      omega
    rw [biStep_eq, if_neg hty2, if_neg hne]

/-- Witness for C5: the concrete pipeline stroke of `ex1` spans 6 ≥ 4
indices, and a TOP candidate one index after a BOTTOM anchor is
discarded without state change. -/
theorem C5_stroke_spacing_witness :
    cexBi.start_fx.idx + 4 ≤ cexBi.end_fx.idx ∧
      biStep ([], sampleB) sampleTnear = ([], sampleB) :=
  ⟨C5_stroke_spacing.1 (chanStd ex1) cexBi (by decide),
   C5_stroke_spacing.2 ([], sampleB) sampleTnear (by decide) (by decide)⟩

/-- C6.  `find_fenxing` records fractals only at interior indices, a
TOP exactly under the strict double dominance condition and a BOTTOM
exactly under the reversed one, never both at one index, and the
resulting list is strictly ordered by apex index. -/
theorem C6_find_fenxing_characterization (std : List ChanKLine) :
    (∀ fx ∈ find_fenxing std,
        1 ≤ fx.idx ∧ fx.idx + 1 < std.length ∧
        (fx.type = FenXingType.TOP → isTopAt std fx.idx) ∧
        (fx.type = FenXingType.BOTTOM → isBottomAt std fx.idx)) ∧
    (∀ i, 1 ≤ i → i + 1 < std.length → isTopAt std i →
        topFxAt std i ∈ find_fenxing std) ∧
    (∀ i, 1 ≤ i → i + 1 < std.length → isBottomAt std i →
        botFxAt std i ∈ find_fenxing std) ∧
    (∀ i, ¬ (isTopAt std i ∧ isBottomAt std i)) ∧
    (find_fenxing std).Pairwise (fun a b => a.idx < b.idx) := by
  refine ⟨?_, ?_, ?_, not_top_and_bottom std, find_fenxing_pairwise std⟩
  · intro fx hfx
    rcases find_fenxing_mem.mp hfx with ⟨h3, j, h1, h2, hj⟩
    unfold fxAt at hj
    rcases List.mem_append.mp hj with hj | hj
    · split_ifs at hj with hc
      · rcases List.mem_singleton.mp hj with rfl
        exact ⟨h1, h2, fun _ => hc, fun hbt => FenXingType.noConfusion hbt⟩
      · exact absurd hj (List.not_mem_nil fx)
    · split_ifs at hj with hc
      · rcases List.mem_singleton.mp hj with rfl
        exact ⟨h1, h2, fun htp => FenXingType.noConfusion htp, fun _ => hc⟩
      · exact absurd hj (List.not_mem_nil fx)
  · intro i h1 h2 htop
    refine find_fenxing_mem.mpr ⟨by omega, i, h1, h2, ?_⟩
    unfold fxAt
    exact List.mem_append_left _ (by rw [if_pos htop]; exact List.mem_singleton.mpr rfl)
  · intro i h1 h2 hbot
    refine find_fenxing_mem.mpr ⟨by omega, i, h1, h2, ?_⟩
    unfold fxAt
    exact List.mem_append_right _ (by rw [if_pos hbot]; exact List.mem_singleton.mpr rfl)

/-- Witness for C6: the three-candle sequence `std3` has its TOP
recorded at interior index 1. -/
theorem C6_find_fenxing_witness : topFxAt std3 1 ∈ find_fenxing std3 :=
  (C6_find_fenxing_characterization std3).2.1 1 (by decide) (by decide) (by decide)

/-- C7.  The inclusion merge is idempotent: its own output (equivalently
any sequence with no adjacent containment pair) passes through
unchanged. -/
theorem C7_inclusion_idempotent :
    (∀ raws : List ChanKLine,
        process_inclusion (process_inclusion raws) = process_inclusion raws) ∧
    (∀ xs : List ChanKLine, NoInclAdj xs → process_inclusion xs = xs) :=
  ⟨fun raws => process_of_noInclAdj (noInclAdj_process raws),
   fun _ h => process_of_noInclAdj h⟩

/-- Witness for C7 on a concrete containment-free pair. -/
theorem C7_inclusion_idempotent_witness :
    NoInclAdj [mkK 0 20 18, mkK 1 18 16] ∧
      process_inclusion [mkK 0 20 18, mkK 1 18 16] = [mkK 0 20 18, mkK 1 18 16] :=
  ⟨by decide, C7_inclusion_idempotent.2 [mkK 0 20 18, mkK 1 18 16] (by decide)⟩

/-- C8.  The provenance lists of the standard candles, concatenated in
output order, are exactly the raw positions in original order: the
absorbed ranges are contiguous, non-overlapping and jointly cover the
whole raw sequence. -/
theorem C8_raw_index_partition :
    ∀ rows : List Bar, flatOrig (chanStd rows) = List.range rows.length := by
  intro rows
  show flatOrig (process_inclusion (mkRawFrom 0 rows)) = _
  rw [process_inclusion_flatOrig, mkRawFrom_flatOrig, List.range_eq_range']

/-- C9.  Degenerate inputs give empty outputs and no failure: an empty
input empties all three stages, fewer than 3 standard candles give no
fractal, fewer than 2 fractals give no stroke. -/
theorem C9_degenerate_inputs :
    (chanStd [] = [] ∧ chanFx [] = [] ∧ chanBis [] = []) ∧
    (∀ std : List ChanKLine, std.length < 3 → find_fenxing std = []) ∧
    (∀ fxs : List FenXing, fxs.length < 2 → draw_bi fxs = []) := by
  refine ⟨⟨rfl, rfl, rfl⟩, ?_, ?_⟩
  · intro std h
    unfold find_fenxing
    rw [if_pos h]
  · intro fxs h
    match fxs with
    | [] => rfl
    | [f] => rfl
    | f1 :: f2 :: r =>
      exfalso
      simp only [List.length_cons] at h
      omega

/-- Witness for C9 at concrete degenerate inputs. -/
theorem C9_degenerate_inputs_witness :
    find_fenxing [defaultK] = [] ∧ draw_bi [sampleB] = [] :=
  ⟨C9_degenerate_inputs.2.1 [defaultK] (by decide),
   C9_degenerate_inputs.2.2 [sampleB] (by decide)⟩

/-- C10.  At every intermediate state of the `draw_bi` loop (any prefix
of fractals processed from any initial anchor), a non-empty accumulated
stroke list has its last stroke ending exactly at the current anchor;
hence the unconditional in-place rewrite always targets a stroke whose
end is the pre-replacement anchor, matching the conditional wording of
the spec. -/
theorem C10_last_stroke_end_is_anchor :
    ∀ (f0 : FenXing) (pre : List FenXing) (b : Bi),
      (pre.foldl biStep ([], f0)).1.head? = some b →
      b.end_fx = (pre.foldl biStep ([], f0)).2 := by
  intro f0 pre b hb
  exact (foldl_biStep_invA pre ([], f0)
      ⟨fun b hb => absurd hb (List.not_mem_nil b), List.chain'_nil,
       fun b hb => (Option.not_mem_none b hb).elim⟩).2.2 b (Option.mem_def.mpr hb)

/-- Witness for C10 on a concrete one-step run. -/
theorem C10_last_stroke_end_is_anchor_witness :
    (mkBi sampleB sampleT).end_fx = (([sampleT]).foldl biStep ([], sampleB)).2 :=
  C10_last_stroke_end_is_anchor sampleB [sampleT] (mkBi sampleB sampleT) (by decide)
